import Mathlib

/-!
Verification of the train-probability engine of nine_innings_bot
(src/train_probability_calculator.py) against its specification.

The Python source is shallowly embedded below: Python arbitrary-precision
integers become Int or Nat, tuples and lists become List, raised
AssertionError becomes Except.error, and the floating point values of the
final step are idealized as exact rationals (the source accumulates counts
in a Python float; that representation issue is examined separately by the
float-precision theorems).  The SimpleEval expression
evaluator imported by the source is not part of the repository, so a
condition is modelled from the spec as a boolean function of the five
bound variable values.
-/

/-- Model of the Python built-in str.replace on character lists: scan left to
right, replacing each non-overlapping occurrence of pat by rep and continuing
after the replaced text.  The fuel argument only bounds the recursion; it is
instantiated with the length of the scanned list, which suffices because each
step consumes at least one character of the scanned list when pat is
nonempty. -/
def replaceChars (pat rep : List Char) : Nat → List Char → List Char
  | 0, s => s
  | _ + 1, [] => []
  | fuel + 1, c :: rest =>
    if pat ≠ [] ∧ pat.isPrefixOf (c :: rest) then
      rep ++ replaceChars pat rep fuel ((c :: rest).drop pat.length)
    else
      c :: replaceChars pat rep fuel rest

/-- Python str.replace(pat, rep) on strings. -/
def pyReplace (s pat rep : String) : String :=
  String.mk (replaceChars pat.data rep.data s.data.length s.data)

/-- Python str.lower() (the keys involved are plain ASCII). -/
def pyLower (s : String) : String := String.mk (s.data.map Char.toLower)

/-- Whether pat occurs as a contiguous segment of s (decidable companion of
the existence of a split s = l ++ pat ++ r). -/
def occursB (pat : List Char) : List Char → Bool
  | [] => pat.isEmpty
  | c :: rest => pat.isPrefixOf (c :: rest) || occursB pat rest

/-- stat_var_dict of calc_train_probability (lines 76-87), in source order. -/
def stat_var_dict : List (String × String) :=
  [("CON", "a"), ("POW", "b"), ("EYE", "c"), ("SPD", "d"), ("FLD", "e"),
   ("LOC", "a"), ("VEL", "b"), ("STA", "c"), ("FB", "d"), ("BRK", "e")]

/-- Lines 88-91 of the source: for each key of stat_var_dict in order, replace
the key and then its lowercased form by the corresponding variable name. -/
def canonicalizeCondition (condition : String) : String :=
  stat_var_dict.foldl
    (fun cond kv => pyReplace (pyReplace cond kv.1 kv.2) (pyLower kv.1) kv.2)
    condition

/-- exact_train_count (lines 11-29): the factorial of the distribution sum,
floor-divided in turn by the factorial of every entry.  Entries are
non-negative integers (math.factorial rejects negative input), so the
embedding uses Nat. -/
def exact_train_count (distribution : List Nat) : Nat :=
  (distribution.map Nat.factorial).foldl
    (fun result val => result / val) (Nat.factorial distribution.sum)

/-- Python range(a, b) over integers. -/
def rangeInt (a b : Int) : List Int :=
  (List.range (b - a).toNat).map (fun (k : Nat) => a + (k : Int))

/-- Model of itertools.combinations(xs, r): all length-r subsequences of xs in
lexicographic order of positions. -/
def combos : Nat → List Int → List (List Int)
  | 0, _ => [[]]
  | _ + 1, [] => []
  | r + 1, x :: xs => (combos r xs).map (fun c => x :: c) ++ combos (r + 1) xs

/-- The inner generator intervals of partitions (lines 41-46), with the
running value last made explicit: each cut point yields the gap to the
previous cut point, and a final gap up to t + n closes the tuple. -/
def intervalsGo (t : Int) (n : Nat) : Int → List Int → List Int
  | last, [] => [t + (n : Int) - last - 1]
  | last, i :: c => (i - last - 1) :: intervalsGo t n i c

/-- intervals(c) of the source, which starts with last = 0. -/
def intervals (t : Int) (n : Nat) (c : List Int) : List Int :=
  intervalsGo t n 0 c

/-- partitions(n, t) (lines 32-49): the gaps of every (n-1)-combination of cut
points drawn from range(1, t + n). -/
def partitions (n : Nat) (t : Int) : List (List Int) :=
  (combos (n - 1) (rangeInt 1 (t + (n : Int)))).map (intervals t n)

/-- Modelled from the spec: SimpleEval (imported by the source from
src.simple_eval, a module absent from the repository) deterministically
evaluates the canonicalized condition string against the bindings of the five
variables a, b, c, d, e; a condition is therefore modelled as a boolean
function of the list of the five bound values, in that order. -/
abbrev Condition : Type := List Int → Bool

/-- Modelled from the spec: the condition string a>=3 holds exactly when the
value bound to the variable a is at least 3. -/
def condGe3 : Condition := fun vars => decide ((3 : Int) ≤ vars.headD 0)

/-- A tautological condition. -/
def condTrue : Condition := fun _ => true

/-- math.pow restricted to integer exponents, idealized as an exact rational
(math.pow returns the real power rounded to a float). -/
def powInt (b : ℚ) (z : Int) : ℚ :=
  if 0 ≤ z then b ^ z.toNat else 1 / b ^ (-z).toNat

/-- calc_train_probability (lines 52-118).  The four AssertionError raises
become Except.error with the source's messages; the condition argument stands
for the SimpleEval evaluation of the canonicalized condition (the string
rewriting itself is canonicalizeCondition above); cur_level uses integer
division, which agrees with the source's float division because it is only
evaluated once sum is checked to be a non-negative multiple of 3.  The
running accumulator, declared float in the source (sum_ = 0.0, line 96) and
incremented by the integer counts, and the final division are idealized here
as exact values; that idealization of the accumulator is faithful only while
the counts and partial sums stay below 2 to the 53, which inputs inside the
accepted horizon exceed, so exactness statements about this embedding
describe the intended arithmetic, not the source's float behaviour (see the
float-precision theorems below). -/
def calc_train_probability
    (cur_train : List Int) (target_level : Int) (condition : Condition) :
    Except String ℚ :=
  if cur_train.length ≠ 5 then
    Except.error "Must have exactly 5 values in current train"
  else if cur_train.any (fun val => decide (val < 0)) then
    Except.error "Current train values less than 0"
  else if cur_train.sum % 3 ≠ 0 then
    Except.error "Current train invalid. Must be multiple of 3"
  else if ¬ (0 ≤ (target_level : ℚ) - (cur_train.sum : ℚ) / 3 ∧
      (target_level : ℚ) - (cur_train.sum : ℚ) / 3 ≤ 20) then
    Except.error "Target level not between 0 and 20"
  else
    let cur_level : Int := cur_train.sum / 3 + 1
    let train_points_left : Int := 3 * (target_level - cur_level)
    let sum_ : Nat :=
      (partitions 5 train_points_left).foldl
        (fun acc i =>
          if condition (List.zipWith (fun x y => x + y) i cur_train) then
            acc + exact_train_count (i.map Int.toNat)
          else acc) 0
    Except.ok ((sum_ : ℚ) / powInt 5 train_points_left)

/-- All sequences of a given number of unit training increments; each
increment lands on one of the five stats. -/
def allSeqs : Nat → List (List (Fin 5))
  | 0 => [[]]
  | p + 1 => (List.finRange 5).flatMap (fun j => (allSeqs p).map (fun s => j :: s))

/-- How many increments of a sequence landed on each stat. -/
def tally (s : List (Fin 5)) : Fin 5 → Nat := fun i => s.count i

/-- A count vector as the corresponding 5-entry integer list. -/
def listOfCounts (k : Fin 5 → Nat) : List Int :=
  [(k 0 : Int), (k 1 : Int), (k 2 : Int), (k 3 : Int), (k 4 : Int)]

/-- The count vector of a 5-entry integer list. -/
def countsOf (p : List Int) : Fin 5 → Nat := fun i => (p.getD (i : Nat) 0).toNat

/-- The multinomial coefficient of a count vector. -/
def multCount (k : Fin 5 → Nat) : Nat := Nat.multinomial Finset.univ k

/-- Number of increment sequences of length P whose final distribution,
on top of cur_train, satisfies the condition. -/
def seqFavCount (cur_train : List Int) (P : Nat) (condition : Condition) : Nat :=
  (allSeqs P).countP
    (fun s => condition (List.zipWith (fun x y => x + y) (listOfCounts (tally s)) cur_train))

/-- Sum, over the generated partitions of P for which the condition holds on
the bindings offset by cur_train, of the multinomial count of the partition:
the favorable-outcome accumulator of the engine. -/
def genFavSum (cur_train : List Int) (P : Nat) (condition : Condition) : Nat :=
  ((partitions 5 (P : Int)).map
    (fun p =>
      if condition (List.zipWith (fun x y => x + y) p cur_train) then
        exact_train_count (p.map Int.toNat)
      else 0)).sum

example : partitions 5 0 = [[0, 0, 0, 0, 0]] := by decide
example : partitions 5 (-3) = [] := by decide
example : exact_train_count [3, 0, 0, 0, 0] = 1 := by decide
example : exact_train_count [1, 1, 1, 0, 0] = 6 := by decide
example : (partitions 5 3).length = 35 := by decide
example : genFavSum [0, 0, 0, 0, 0] 3 condGe3 = 1 := by decide
example : seqFavCount [0, 0, 0, 0, 0] 3 condGe3 = 1 := by decide
example : canonicalizeCondition "CON>=3" = "a>=3" := by decide
example : canonicalizeCondition "Con>=3" = "Con>=3" := by decide
example : pyLower "CON" = "con" := by decide

/-! ### Basic arithmetic facts about exact_train_count -/

theorem foldl_div_eq_div_prod (l : List Nat) : ∀ N : Nat, l.foldl (fun r v => r / v) N = N / l.prod := by
  induction l with
  | nil => intro N; simp
  | cons a l ih =>
    intro N
    rw [List.foldl_cons, ih, List.prod_cons, Nat.div_div_eq_div_mul]

theorem prod_factorials_dvd (p : List Nat) : (p.map Nat.factorial).prod ∣ (p.sum).factorial := by
  induction p with
  | nil => simp
  | cons a p ih =>
    rw [List.map_cons, List.prod_cons, List.sum_cons]
    calc (a.factorial) * (p.map Nat.factorial).prod
        ∣ a.factorial * (p.sum).factorial := mul_dvd_mul_left _ ih
      _ ∣ (a + p.sum).factorial := Nat.factorial_mul_factorial_dvd_factorial_add _ _

theorem exact_train_count_eq (p : List Nat) :
    exact_train_count p = (p.sum).factorial / (p.map Nat.factorial).prod := by
  rw [exact_train_count, foldl_div_eq_div_prod]

/-- C5: exact_train_count computes exactly the multinomial coefficient
sum factorial over the product of entry factorials, the overall division is
exact (multiplying back by the denominator recovers the numerator exactly,
so no remainder is ever discarded), and every sequential division step is
exact because each prefix of the denominator product already divides the
numerator. -/
theorem exact_train_count_spec (p : List Nat) :
    exact_train_count p = (p.sum).factorial / (p.map Nat.factorial).prod ∧
    exact_train_count p * (p.map Nat.factorial).prod = (p.sum).factorial ∧
    ∀ i : Nat, ((p.take i).map Nat.factorial).prod ∣ (p.sum).factorial := by
  refine ⟨exact_train_count_eq p, ?_, ?_⟩
  · rw [exact_train_count_eq]
    exact Nat.div_mul_cancel (prod_factorials_dvd p)
  · intro i
    refine dvd_trans ?_ (prod_factorials_dvd p)
    have h : ((p.take i).map Nat.factorial).prod * ((p.drop i).map Nat.factorial).prod
        = (p.map Nat.factorial).prod := by
      rw [← List.prod_append, ← List.map_append, List.take_append_drop]
    exact ⟨_, h.symm⟩

/-- C6: the multinomial count of the even split of the 60 points of the
nominal 20-level horizon exceeds 2 to the 53, the largest range in which an
IEEE-754 double represents every integer exactly.  The validation actually
caps the remaining points at 57 (20 levels beyond a current level whose sum
is a multiple of 3), and counts reachable there are equally far beyond the
float range — 57 points split as four 12s and a 9 give 57 factorial over
12 factorial to the fourth times 9 factorial, larger still than this one —
so accumulating such counts in the float-typed accumulator of the source
loses exactness, while the counts themselves demand arbitrary precision
integers. -/
theorem exact_train_count_exceeds_float_precision :
    2 ^ 53 < exact_train_count [12, 12, 12, 12, 12] := by decide

/-! ### Canonicalization of condition stat aliases (C9) -/

theorem isPrefixOf_eq_true : ∀ (pat s : List Char),
    pat.isPrefixOf s = true ↔ ∃ r, s = pat ++ r := by
  intro pat
  induction pat with
  | nil =>
    intro s
    constructor
    · intro _
      exact ⟨s, rfl⟩
    · intro _
      cases s <;> rfl
  | cons p pt ih =>
    intro s
    cases s with
    | nil =>
      constructor
      · intro h
        exact Bool.noConfusion h
      · rintro ⟨r, hr⟩
        have hl := congrArg List.length hr
        simp at hl
    | cons c rest =>
      rw [show (p :: pt).isPrefixOf (c :: rest) = ((p == c) && pt.isPrefixOf rest) from rfl]
      rw [Bool.and_eq_true]
      constructor
      · rintro ⟨h1, h2⟩
        obtain ⟨r, hr⟩ := (ih rest).mp h2
        refine ⟨r, ?_⟩
        rw [eq_of_beq h1, hr]
        rfl
      · rintro ⟨r, hr⟩
        have h1 : c = p := congrArg (fun l => l.headD ' ') hr
        have h2 : rest = pt ++ r := congrArg List.tail hr
        refine ⟨?_, (ih rest).mpr ⟨r, h2⟩⟩
        rw [h1]
        exact beq_self_eq_true p

theorem occursB_eq_true (pat : List Char) : ∀ s : List Char,
    occursB pat s = true ↔ ∃ l r, s = l ++ (pat ++ r) := by
  intro s
  induction s with
  | nil =>
    rw [show occursB pat [] = pat.isEmpty from rfl]
    constructor
    · intro h
      have hp : pat = [] := by
        cases pat with
        | nil => rfl
        | cons a as => exact Bool.noConfusion h
      refine ⟨[], [], ?_⟩
      rw [hp]
      rfl
    · rintro ⟨l, r, h⟩
      have hl := congrArg List.length h
      simp only [List.length_nil, List.length_append] at hl
      have hpat0 : pat.length = 0 := by omega
      rw [List.length_eq_zero.mp hpat0]
      rfl
  | cons c rest ih =>
    rw [show occursB pat (c :: rest) = (pat.isPrefixOf (c :: rest) || occursB pat rest) from rfl]
    rw [Bool.or_eq_true]
    constructor
    · rintro (h | h)
      · obtain ⟨r, hr⟩ := (isPrefixOf_eq_true pat (c :: rest)).mp h
        exact ⟨[], r, hr⟩
      · obtain ⟨l, r, hr⟩ := ih.mp h
        refine ⟨c :: l, r, ?_⟩
        rw [List.cons_append, hr]
    · rintro ⟨l, r, h⟩
      cases l with
      | nil =>
        left
        exact (isPrefixOf_eq_true pat (c :: rest)).mpr ⟨r, h⟩
      | cons c' l' =>
        right
        have h2 : rest = l' ++ (pat ++ r) := congrArg List.tail h
        exact ih.mpr ⟨l', r, h2⟩

theorem replace_no_occurrence (pat rep : List Char) :
    ∀ (fuel : Nat) (s : List Char), (¬ ∃ l r, s = l ++ (pat ++ r)) →
    replaceChars pat rep fuel s = s := by
  intro fuel
  induction fuel with
  | zero =>
    intro s _
    rfl
  | succ fuel ih =>
    intro s h
    cases s with
    | nil => rfl
    | cons c rest =>
      rw [show replaceChars pat rep (fuel + 1) (c :: rest)
          = if pat ≠ [] ∧ pat.isPrefixOf (c :: rest) then
              rep ++ replaceChars pat rep fuel ((c :: rest).drop pat.length)
            else c :: replaceChars pat rep fuel rest from rfl]
      have hcond : ¬ (pat ≠ [] ∧ pat.isPrefixOf (c :: rest) = true) := by
        rintro ⟨-, hpre2⟩
        obtain ⟨r, hr⟩ := (isPrefixOf_eq_true pat (c :: rest)).mp hpre2
        exact h ⟨[], r, hr⟩
      rw [if_neg hcond]
      congr 1
      apply ih
      rintro ⟨l, r, hr⟩
      refine h ⟨c :: l, r, ?_⟩
      rw [List.cons_append, hr]

theorem replace_isolated (pat rep : List Char) (hpat : pat ≠ [])
    (hpatA : ∀ c ∈ pat, c.isAlpha = true) :
    ∀ (pre : List Char) (fuel : Nat) (suf : List Char),
    (∀ c ∈ pre, c.isAlpha = false) → (∀ c ∈ suf, c.isAlpha = false) →
    (pre ++ (pat ++ suf)).length ≤ fuel →
    replaceChars pat rep fuel (pre ++ (pat ++ suf)) = pre ++ (rep ++ suf) := by
  intro pre
  induction pre with
  | nil =>
    intro fuel suf hpre hsuf hfuel
    cases pat with
    | nil => exact absurd rfl hpat
    | cons p pt =>
      cases fuel with
      | zero =>
        exfalso
        simp only [List.length_append, List.length_cons, List.length_nil,
          Nat.le_zero] at hfuel
        omega
      | succ fuel =>
        rw [show replaceChars (p :: pt) rep (fuel + 1) (([] : List Char) ++ ((p :: pt) ++ suf))
            = if (p :: pt) ≠ [] ∧ (p :: pt).isPrefixOf ((p :: pt) ++ suf) then
                rep ++ replaceChars (p :: pt) rep fuel (((p :: pt) ++ suf).drop (p :: pt).length)
              else p :: replaceChars (p :: pt) rep fuel (pt ++ suf) from rfl]
        rw [if_pos ⟨by simp, (isPrefixOf_eq_true _ _).mpr ⟨suf, rfl⟩⟩]
        rw [List.drop_left]
        have hno : ¬ ∃ l r, suf = l ++ ((p :: pt) ++ r) := by
          rintro ⟨l, r, hr⟩
          have hp : p ∈ suf := by
            rw [hr]
            simp
          have h2 := hpatA p (List.mem_cons_self _ _)
          rw [hsuf p hp] at h2
          exact Bool.noConfusion h2
        rw [replace_no_occurrence (p :: pt) rep fuel suf hno]
        rfl
  | cons c pre' ih =>
    intro fuel suf hpre hsuf hfuel
    cases fuel with
    | zero =>
      exfalso
      simp only [List.length_append, List.length_cons, Nat.le_zero] at hfuel
      omega
    | succ fuel =>
      have hcond : ¬ (pat ≠ [] ∧ pat.isPrefixOf (c :: (pre' ++ (pat ++ suf))) = true) := by
        rintro ⟨hne, hpre2⟩
        cases pat with
        | nil => exact hne rfl
        | cons p pt =>
          obtain ⟨r, hr⟩ := (isPrefixOf_eq_true _ _).mp hpre2
          have h1 : c = p := congrArg (fun l => l.headD ' ') hr
          have ha := hpatA p (List.mem_cons_self _ _)
          have hc := hpre c (List.mem_cons_self _ _)
          rw [← h1, hc] at ha
          exact Bool.noConfusion ha
      rw [show replaceChars pat rep (fuel + 1) ((c :: pre') ++ (pat ++ suf))
          = if pat ≠ [] ∧ pat.isPrefixOf (c :: (pre' ++ (pat ++ suf))) then
              rep ++ replaceChars pat rep fuel ((c :: (pre' ++ (pat ++ suf))).drop pat.length)
            else c :: replaceChars pat rep fuel (pre' ++ (pat ++ suf)) from rfl]
      rw [if_neg hcond]
      rw [ih fuel suf (fun x hx => hpre x (List.mem_cons_of_mem _ hx)) hsuf (by
        simp only [List.length_append, List.length_cons] at hfuel ⊢
        omega)]
      rfl

theorem alpha_block_front (suf : List Char) (hsuf : ∀ c ∈ suf, c.isAlpha = false) :
    ∀ (pat : List Char), (∀ c ∈ pat, c.isAlpha = true) →
    ∀ (mid r : List Char), pat ++ r = mid ++ suf → ∃ r2, mid = pat ++ r2 := by
  intro pat
  induction pat with
  | nil =>
    intro _ mid r _
    exact ⟨mid, rfl⟩
  | cons p pt ih =>
    intro hA mid r h
    cases mid with
    | nil =>
      exfalso
      have h' : p :: (pt ++ r) = suf := h
      have hp : p ∈ suf := by
        rw [← h']
        exact List.mem_cons_self _ _
      have h2 := hA p (List.mem_cons_self _ _)
      rw [hsuf p hp] at h2
      exact Bool.noConfusion h2
    | cons d mid' =>
      have h1 : p = d := congrArg (fun l => l.headD ' ') h
      have h2 : pt ++ r = mid' ++ suf := congrArg List.tail h
      obtain ⟨r2, hr2⟩ := ih (fun x hx => hA x (List.mem_cons_of_mem _ hx)) mid' r h2
      refine ⟨r2, ?_⟩
      rw [← h1, hr2]
      rfl

theorem block_confine (suf : List Char) (hsuf : ∀ c ∈ suf, c.isAlpha = false)
    (pat : List Char) (hpat : pat ≠ []) (hpatA : ∀ c ∈ pat, c.isAlpha = true) :
    ∀ (mid l r : List Char), mid ++ suf = l ++ (pat ++ r) →
    ∃ l2 r2, mid = l2 ++ (pat ++ r2) := by
  intro mid
  induction mid with
  | nil =>
    intro l r h
    exfalso
    cases pat with
    | nil => exact hpat rfl
    | cons p pt =>
      have hp : p ∈ suf := by
        have h' : suf = l ++ ((p :: pt) ++ r) := h
        rw [h']
        simp
      have h2 := hpatA p (List.mem_cons_self _ _)
      rw [hsuf p hp] at h2
      exact Bool.noConfusion h2
  | cons d mid' ih =>
    intro l r h
    cases l with
    | nil =>
      have h' : (d :: mid') ++ suf = pat ++ r := h
      obtain ⟨r2, hr2⟩ := alpha_block_front suf hsuf pat hpatA (d :: mid') r h'.symm
      exact ⟨[], r2, hr2⟩
    | cons c' l' =>
      have h2 : mid' ++ suf = l' ++ (pat ++ r) := congrArg List.tail h
      obtain ⟨l2, r2, hm⟩ := ih l' r h2
      refine ⟨d :: l2, r2, ?_⟩
      rw [List.cons_append, hm]

theorem occurrence_in_block (pat : List Char) (hpat : pat ≠ [])
    (hpatA : ∀ c ∈ pat, c.isAlpha = true) :
    ∀ (pre mid suf : List Char),
    (∀ c ∈ pre, c.isAlpha = false) → (∀ c ∈ suf, c.isAlpha = false) →
    (∃ l r, pre ++ (mid ++ suf) = l ++ (pat ++ r)) → ∃ l r, mid = l ++ (pat ++ r) := by
  intro pre
  induction pre with
  | nil =>
    intro mid suf hpre hsuf hocc
    obtain ⟨l, r, h⟩ := hocc
    have h' : mid ++ suf = l ++ (pat ++ r) := h
    exact block_confine suf hsuf pat hpat hpatA mid l r h'
  | cons c pre' ih =>
    intro mid suf hpre hsuf hocc
    obtain ⟨l, r, h⟩ := hocc
    cases l with
    | nil =>
      exfalso
      cases pat with
      | nil => exact hpat rfl
      | cons p pt =>
        have h1 : c = p := congrArg (fun l => l.headD ' ') h
        have ha := hpatA p (List.mem_cons_self _ _)
        have hc := hpre c (List.mem_cons_self _ _)
        rw [← h1, hc] at ha
        exact Bool.noConfusion ha
    | cons c' l' =>
      have h2 : pre' ++ (mid ++ suf) = l' ++ (pat ++ r) := congrArg List.tail h
      exact ih mid suf (fun x hx => hpre x (List.mem_cons_of_mem _ hx)) hsuf ⟨l', r, h2⟩

theorem pyReplace_unchanged (s k v : String)
    (h : ¬ ∃ l r, s.data = l ++ (k.data ++ r)) : pyReplace s k v = s := by
  unfold pyReplace
  rw [replace_no_occurrence k.data v.data s.data.length s.data h]

/-- One dictionary entry leaves a string whose letter content is an isolated
block mid untouched when neither casing of the key occurs in mid. -/
theorem step_unchanged (pre mid suf : List Char) (k v : String)
    (hpre : ∀ c ∈ pre, c.isAlpha = false) (hsuf : ∀ c ∈ suf, c.isAlpha = false)
    (hk1 : k.data ≠ []) (hk2 : ∀ c ∈ k.data, c.isAlpha = true)
    (hk3 : (pyLower k).data ≠ []) (hk4 : ∀ c ∈ (pyLower k).data, c.isAlpha = true)
    (h1 : occursB k.data mid = false) (h2 : occursB (pyLower k).data mid = false) :
    pyReplace (pyReplace (String.mk (pre ++ (mid ++ suf))) k v) (pyLower k) v
      = String.mk (pre ++ (mid ++ suf)) := by
  have hu1 : pyReplace (String.mk (pre ++ (mid ++ suf))) k v
      = String.mk (pre ++ (mid ++ suf)) := by
    refine pyReplace_unchanged _ _ _ ?_
    intro hocc
    have hin := occurrence_in_block k.data hk1 hk2 pre mid suf hpre hsuf hocc
    have hB := (occursB_eq_true k.data mid).mpr hin
    rw [h1] at hB
    exact Bool.noConfusion hB
  rw [hu1]
  refine pyReplace_unchanged _ _ _ ?_
  intro hocc
  have hin := occurrence_in_block (pyLower k).data hk3 hk4 pre mid suf hpre hsuf hocc
  have hB := (occursB_eq_true (pyLower k).data mid).mpr hin
  rw [h2] at hB
  exact Bool.noConfusion hB

/-- The entry of the key itself rewrites an isolated exact-uppercase
occurrence to the variable name. -/
theorem step_rewrites_upper (pre suf : List Char) (k v : String)
    (hpre : ∀ c ∈ pre, c.isAlpha = false) (hsuf : ∀ c ∈ suf, c.isAlpha = false)
    (hk1 : k.data ≠ []) (hk2 : ∀ c ∈ k.data, c.isAlpha = true)
    (hk3 : (pyLower k).data ≠ []) (hk4 : ∀ c ∈ (pyLower k).data, c.isAlpha = true)
    (hvl : occursB (pyLower k).data v.data = false) :
    pyReplace (pyReplace (String.mk (pre ++ (k.data ++ suf))) k v) (pyLower k) v
      = String.mk (pre ++ (v.data ++ suf)) := by
  have h1 : pyReplace (String.mk (pre ++ (k.data ++ suf))) k v
      = String.mk (pre ++ (v.data ++ suf)) := by
    unfold pyReplace
    rw [show (String.mk (pre ++ (k.data ++ suf))).data = pre ++ (k.data ++ suf) from rfl]
    rw [replace_isolated k.data v.data hk1 hk2 pre _ suf hpre hsuf (le_refl _)]
  rw [h1]
  refine pyReplace_unchanged _ _ _ ?_
  intro hocc
  have hin := occurrence_in_block (pyLower k).data hk3 hk4 pre v.data suf hpre hsuf hocc
  have hB := (occursB_eq_true (pyLower k).data v.data).mpr hin
  rw [hvl] at hB
  exact Bool.noConfusion hB

/-- The entry of the key itself rewrites an isolated exact-lowercase
occurrence to the variable name. -/
theorem step_rewrites_lower (pre suf : List Char) (k v : String)
    (hpre : ∀ c ∈ pre, c.isAlpha = false) (hsuf : ∀ c ∈ suf, c.isAlpha = false)
    (hk1 : k.data ≠ []) (hk2 : ∀ c ∈ k.data, c.isAlpha = true)
    (hk3 : (pyLower k).data ≠ []) (hk4 : ∀ c ∈ (pyLower k).data, c.isAlpha = true)
    (hul : occursB k.data (pyLower k).data = false) :
    pyReplace (pyReplace (String.mk (pre ++ ((pyLower k).data ++ suf))) k v) (pyLower k) v
      = String.mk (pre ++ (v.data ++ suf)) := by
  have h1 : pyReplace (String.mk (pre ++ ((pyLower k).data ++ suf))) k v
      = String.mk (pre ++ ((pyLower k).data ++ suf)) := by
    refine pyReplace_unchanged _ _ _ ?_
    intro hocc
    have hin := occurrence_in_block k.data hk1 hk2 pre (pyLower k).data suf hpre hsuf hocc
    have hB := (occursB_eq_true k.data (pyLower k).data).mpr hin
    rw [hul] at hB
    exact Bool.noConfusion hB
  rw [h1]
  unfold pyReplace
  rw [show (String.mk (pre ++ ((pyLower k).data ++ suf))).data
      = pre ++ ((pyLower k).data ++ suf) from rfl]
  rw [replace_isolated (pyLower k).data v.data hk3 hk4 pre _ suf hpre hsuf (le_refl _)]

theorem foldl_steps_unchanged (pre suf : List Char)
    (hpre : ∀ c ∈ pre, c.isAlpha = false) (hsuf : ∀ c ∈ suf, c.isAlpha = false) :
    ∀ (l : List (String × String)) (mid : List Char),
    (∀ kv ∈ l, kv.1.data ≠ [] ∧ (∀ c ∈ kv.1.data, c.isAlpha = true) ∧
      (pyLower kv.1).data ≠ [] ∧ (∀ c ∈ (pyLower kv.1).data, c.isAlpha = true) ∧
      occursB kv.1.data mid = false ∧ occursB (pyLower kv.1).data mid = false) →
    l.foldl (fun cond kv => pyReplace (pyReplace cond kv.1 kv.2) (pyLower kv.1) kv.2)
        (String.mk (pre ++ (mid ++ suf)))
      = String.mk (pre ++ (mid ++ suf)) := by
  intro l
  induction l with
  | nil =>
    intro mid _
    rfl
  | cons kv l ih =>
    intro mid h
    rw [List.foldl_cons]
    obtain ⟨p1, p2, p3, p4, p5, p6⟩ := h kv (List.mem_cons_self _ _)
    rw [step_unchanged pre mid suf kv.1 kv.2 hpre hsuf p1 p2 p3 p4 p5 p6]
    exact ih mid (fun kv' hkv' => h kv' (List.mem_cons_of_mem _ hkv'))

theorem canon_entry_upper (before after : List (String × String)) (k v : String)
    (pre suf : List Char)
    (hpre : ∀ c ∈ pre, c.isAlpha = false) (hsuf : ∀ c ∈ suf, c.isAlpha = false)
    (hsplit : stat_var_dict = before ++ (k, v) :: after)
    (hk1 : k.data ≠ []) (hk2 : ∀ c ∈ k.data, c.isAlpha = true)
    (hk3 : (pyLower k).data ≠ []) (hk4 : ∀ c ∈ (pyLower k).data, c.isAlpha = true)
    (hvl : occursB (pyLower k).data v.data = false)
    (hbefore : ∀ kv' ∈ before, kv'.1.data ≠ [] ∧ (∀ c ∈ kv'.1.data, c.isAlpha = true) ∧
      (pyLower kv'.1).data ≠ [] ∧ (∀ c ∈ (pyLower kv'.1).data, c.isAlpha = true) ∧
      occursB kv'.1.data k.data = false ∧ occursB (pyLower kv'.1).data k.data = false)
    (hafter : ∀ kv' ∈ after, kv'.1.data ≠ [] ∧ (∀ c ∈ kv'.1.data, c.isAlpha = true) ∧
      (pyLower kv'.1).data ≠ [] ∧ (∀ c ∈ (pyLower kv'.1).data, c.isAlpha = true) ∧
      occursB kv'.1.data v.data = false ∧ occursB (pyLower kv'.1).data v.data = false) :
    canonicalizeCondition (String.mk (pre ++ (k.data ++ suf)))
      = String.mk (pre ++ (v.data ++ suf)) := by
  unfold canonicalizeCondition
  rw [hsplit, List.foldl_append, List.foldl_cons]
  rw [foldl_steps_unchanged pre suf hpre hsuf before k.data hbefore]
  rw [show pyReplace (pyReplace (String.mk (pre ++ (k.data ++ suf))) (k, v).1 (k, v).2)
        (pyLower (k, v).1) (k, v).2
      = String.mk (pre ++ (v.data ++ suf)) from
    step_rewrites_upper pre suf k v hpre hsuf hk1 hk2 hk3 hk4 hvl]
  exact foldl_steps_unchanged pre suf hpre hsuf after v.data hafter

theorem canon_entry_lower (before after : List (String × String)) (k v : String)
    (pre suf : List Char)
    (hpre : ∀ c ∈ pre, c.isAlpha = false) (hsuf : ∀ c ∈ suf, c.isAlpha = false)
    (hsplit : stat_var_dict = before ++ (k, v) :: after)
    (hk1 : k.data ≠ []) (hk2 : ∀ c ∈ k.data, c.isAlpha = true)
    (hk3 : (pyLower k).data ≠ []) (hk4 : ∀ c ∈ (pyLower k).data, c.isAlpha = true)
    (hul : occursB k.data (pyLower k).data = false)
    (hbefore : ∀ kv' ∈ before, kv'.1.data ≠ [] ∧ (∀ c ∈ kv'.1.data, c.isAlpha = true) ∧
      (pyLower kv'.1).data ≠ [] ∧ (∀ c ∈ (pyLower kv'.1).data, c.isAlpha = true) ∧
      occursB kv'.1.data (pyLower k).data = false ∧
      occursB (pyLower kv'.1).data (pyLower k).data = false)
    (hafter : ∀ kv' ∈ after, kv'.1.data ≠ [] ∧ (∀ c ∈ kv'.1.data, c.isAlpha = true) ∧
      (pyLower kv'.1).data ≠ [] ∧ (∀ c ∈ (pyLower kv'.1).data, c.isAlpha = true) ∧
      occursB kv'.1.data v.data = false ∧ occursB (pyLower kv'.1).data v.data = false) :
    canonicalizeCondition (String.mk (pre ++ ((pyLower k).data ++ suf)))
      = String.mk (pre ++ (v.data ++ suf)) := by
  unfold canonicalizeCondition
  rw [hsplit, List.foldl_append, List.foldl_cons]
  rw [foldl_steps_unchanged pre suf hpre hsuf before (pyLower k).data hbefore]
  rw [show pyReplace (pyReplace (String.mk (pre ++ ((pyLower k).data ++ suf))) (k, v).1 (k, v).2)
        (pyLower (k, v).1) (k, v).2
      = String.mk (pre ++ (v.data ++ suf)) from
    step_rewrites_lower pre suf k v hpre hsuf hk1 hk2 hk3 hk4 hul]
  exact foldl_steps_unchanged pre suf hpre hsuf after v.data hafter

theorem foldl_if_add (c : List Int → Bool) (g : List Int → Nat) (L : List (List Int)) :
    ∀ a : Nat, L.foldl (fun acc i => if c i then acc + g i else acc) a
      = a + (L.map (fun i => if c i then g i else 0)).sum := by
  induction L with
  | nil => intro a; simp
  | cons p L ih =>
    intro a
    rw [List.foldl_cons, ih, List.map_cons, List.sum_cons]
    by_cases hc : c p
    · rw [if_pos hc, if_pos hc, Nat.add_assoc]
    · rw [if_neg hc, if_neg hc, Nat.zero_add]

theorem qbound_iff (s tl : Int) :
    (0 ≤ (tl : ℚ) - (s : ℚ) / 3 ∧ (tl : ℚ) - (s : ℚ) / 3 ≤ 20)
      ↔ (s ≤ 3 * tl ∧ 3 * tl ≤ s + 60) := by
  constructor
  · rintro ⟨h1, h2⟩
    constructor
    · have h : (s : ℚ) ≤ 3 * (tl : ℚ) := by linarith
      exact_mod_cast h
    · have h : 3 * (tl : ℚ) ≤ (s : ℚ) + 60 := by linarith
      exact_mod_cast h
  · rintro ⟨h1, h2⟩
    have h1q : (s : ℚ) ≤ 3 * (tl : ℚ) := by exact_mod_cast h1
    have h2q : 3 * (tl : ℚ) ≤ (s : ℚ) + 60 := by exact_mod_cast h2
    constructor <;> linarith

theorem not_any_neg (ct : List Int) (hnn : ∀ v ∈ ct, 0 ≤ v) :
    ¬ (ct.any (fun val => decide (val < 0)) = true) := by
  rw [List.any_eq_true]
  rintro ⟨v, hv, hdec⟩
  exact absurd (of_decide_eq_true hdec) (not_lt.mpr (hnn v hv))

/-- On validated input, calc_train_probability reduces to the accumulated sum
of multinomial counts of condition-satisfying partitions, divided by the power
of five. -/
theorem calc_eval_of_valid (ct : List Int) (tl : Int) (cond : Condition)
    (h5 : ct.length = 5) (hnn : ∀ v ∈ ct, 0 ≤ v) (h3 : ct.sum % 3 = 0)
    (hb : ct.sum ≤ 3 * tl ∧ 3 * tl ≤ ct.sum + 60) :
    calc_train_probability ct tl cond = Except.ok
      ((((partitions 5 (3 * (tl - (ct.sum / 3 + 1)))).map
        (fun i => if cond (List.zipWith (fun x y => x + y) i ct) then
          exact_train_count (i.map Int.toNat) else 0)).sum : ℚ)
        / powInt 5 (3 * (tl - (ct.sum / 3 + 1)))) := by
  unfold calc_train_probability
  rw [if_neg (by simp [h5]), if_neg (not_any_neg ct hnn), if_neg (by simp [h3]),
    if_neg (not_not_intro ((qbound_iff ct.sum tl).mpr hb))]
  simp only [foldl_if_add, Nat.zero_add]

/-- C2 counterexample: with the all-zero distribution the spec's validation
rule demands current_level = 1 be at most target_level, so target_level = 0
must be rejected as InvalidInput; the code instead accepts it and returns a
probability. -/
theorem calc_ok_below_current_level :
    calc_train_probability [0, 0, 0, 0, 0] 0 condTrue = Except.ok 0 ∧
    ¬ (([0, 0, 0, 0, 0] : List Int).sum / 3 + 1 ≤ (0 : Int)) := by
  constructor
  · rw [calc_eval_of_valid [0, 0, 0, 0, 0] 0 condTrue (by decide) (by decide)
      (by decide) (by constructor <;> decide)]
    rw [(by decide : 3 * ((0 : Int) - (([0, 0, 0, 0, 0] : List Int).sum / 3 + 1)) = -3)]
    rw [(by decide : partitions 5 (-3 : Int) = [])]
    simp
  · decide

theorem isOk_error (m : String) : (Except.error m : Except String ℚ).isOk = false := rfl

theorem isOk_ok (q : ℚ) : (Except.ok q : Except String ℚ).isOk = true := rfl

/-- C2 amended: calc_train_probability fails with an AssertionError exactly
when the distribution is malformed or the target level violates the bound the
code actually checks, namely 0 <= target_level - sum/3 <= 20, equivalently
current_level - 1 <= target_level <= current_level + 19; on every input
satisfying these conditions it returns a result. -/
theorem calc_isOk_iff (ct : List Int) (tl : Int) (cond : Condition) :
    (calc_train_probability ct tl cond).isOk = true ↔
      (ct.length = 5 ∧ (∀ v ∈ ct, 0 ≤ v) ∧ ct.sum % 3 = 0 ∧
        ct.sum ≤ 3 * tl ∧ 3 * tl ≤ ct.sum + 60) := by
  unfold calc_train_probability
  split_ifs with h1 h2 h3 h4
  · simp only [isOk_error, Bool.false_eq_true, false_iff]
    rintro ⟨h5, -⟩
    exact h1 h5
  · simp only [isOk_error, Bool.false_eq_true, false_iff]
    rintro ⟨-, hnn, -⟩
    exact absurd h2 (not_any_neg ct hnn)
  · simp only [isOk_error, Bool.false_eq_true, false_iff]
    rintro ⟨-, -, hm, -⟩
    exact h3 hm
  · simp only [isOk_ok]
    constructor
    · intro _
      refine ⟨not_not.mp h1, ?_, not_not.mp h3, (qbound_iff ct.sum tl).mp h4⟩
      intro v hv
      by_contra hneg
      exact h2 (List.any_eq_true.mpr ⟨v, hv, decide_eq_true (not_le.mp hneg)⟩)
    · intro _
      trivial
  · simp only [isOk_error, Bool.false_eq_true, false_iff]
    rintro ⟨-, -, -, hb1, hb2⟩
    exact h4 ((qbound_iff ct.sum tl).mpr ⟨hb1, hb2⟩)

/-- C10: on a well-formed distribution with positive level, asking for the
level just below the current one passes validation (the code only checks
0 <= target - sum/3 <= 20), enumerates an empty partition sequence for the
negative point total -3, and returns exactly 0 for every condition. -/
theorem calc_prev_level_zero (ct : List Int) (cond : Condition)
    (h5 : ct.length = 5) (hnn : ∀ v ∈ ct, 0 ≤ v) (h3 : ct.sum % 3 = 0)
    (hpos : 0 < ct.sum) :
    calc_train_probability ct (ct.sum / 3) cond = Except.ok 0 := by
  have hb : ct.sum ≤ 3 * (ct.sum / 3) ∧ 3 * (ct.sum / 3) ≤ ct.sum + 60 := by
    obtain ⟨m, hm⟩ := Int.dvd_of_emod_eq_zero h3
    rw [hm, Int.mul_ediv_cancel_left _ (by norm_num)]
    omega
  rw [calc_eval_of_valid ct _ cond h5 hnn h3 hb]
  rw [(by ring : 3 * (ct.sum / 3 - (ct.sum / 3 + 1)) = (-3 : Int))]
  rw [(by decide : partitions 5 (-3 : Int) = [])]
  simp

theorem calc_prev_level_zero_witness :
    calc_train_probability [3, 0, 0, 0, 0] (([3, 0, 0, 0, 0] : List Int).sum / 3) condTrue
      = Except.ok 0 :=
  calc_prev_level_zero [3, 0, 0, 0, 0] condTrue (by decide) (by decide) (by decide) (by decide)

/-! ### The combination generator -/

theorem mem_combos : ∀ {k : Nat} {xs : List Int} {c : List Int},
    c ∈ combos k xs ↔ (c.length = k ∧ c.Sublist xs) := by
  intro k xs
  induction xs generalizing k with
  | nil =>
    intro c
    cases k with
    | zero =>
      rw [show combos 0 ([] : List Int) = [[]] from rfl]
      constructor
      · intro h
        rw [List.mem_singleton] at h
        subst h
        exact ⟨rfl, List.nil_sublist _⟩
      · rintro ⟨hl, -⟩
        rw [List.mem_singleton]
        exact List.length_eq_zero.mp hl
    | succ r =>
      rw [show combos (r + 1) ([] : List Int) = [] from rfl]
      constructor
      · intro h
        exact absurd h (List.not_mem_nil c)
      · rintro ⟨hl, hs⟩
        rw [List.sublist_nil.mp hs] at hl
        simp at hl
  | cons x xs ih =>
    intro c
    cases k with
    | zero =>
      rw [show combos 0 (x :: xs) = [[]] from rfl]
      constructor
      · intro h
        rw [List.mem_singleton] at h
        subst h
        exact ⟨rfl, List.nil_sublist _⟩
      · rintro ⟨hl, -⟩
        rw [List.mem_singleton]
        exact List.length_eq_zero.mp hl
    | succ r =>
      rw [show combos (r + 1) (x :: xs)
          = (combos r xs).map (fun c => x :: c) ++ combos (r + 1) xs from rfl]
      rw [List.mem_append, List.mem_map]
      constructor
      · rintro (⟨a, ha, rfl⟩ | h)
        · obtain ⟨hl, hs⟩ := ih.mp ha
          exact ⟨by simp [hl], List.Sublist.cons₂ x hs⟩
        · obtain ⟨hl, hs⟩ := ih.mp h
          exact ⟨hl, hs.cons x⟩
      · rintro ⟨hl, hs⟩
        rcases List.sublist_cons_iff.mp hs with h | hr
        · right
          exact ih.mpr ⟨hl, h⟩
        · obtain ⟨r', rfl, hr'⟩ := hr
          left
          refine ⟨r', ih.mpr ⟨?_, hr'⟩, rfl⟩
          simpa using hl

theorem combos_length : ∀ (k : Nat) (xs : List Int),
    (combos k xs).length = Nat.choose xs.length k := by
  intro k xs
  induction xs generalizing k with
  | nil =>
    cases k with
    | zero => rfl
    | succ r => rfl
  | cons x xs ih =>
    cases k with
    | zero => rfl
    | succ r =>
      rw [show combos (r + 1) (x :: xs)
          = (combos r xs).map (fun c => x :: c) ++ combos (r + 1) xs from rfl]
      rw [List.length_append, List.length_map, ih r, ih (r + 1),
        List.length_cons, Nat.choose_succ_succ]

theorem combos_nodup : ∀ (k : Nat) (xs : List Int), xs.Nodup → (combos k xs).Nodup := by
  intro k xs
  induction xs generalizing k with
  | nil =>
    intro _
    cases k with
    | zero => exact List.nodup_singleton _
    | succ r => exact List.nodup_nil
  | cons x xs ih =>
    intro hnd
    rw [List.nodup_cons] at hnd
    obtain ⟨hx, hxs⟩ := hnd
    cases k with
    | zero => exact List.nodup_singleton _
    | succ r =>
      rw [show combos (r + 1) (x :: xs)
          = (combos r xs).map (fun c => x :: c) ++ combos (r + 1) xs from rfl]
      refine List.Nodup.append ?_ (ih (r + 1) hxs) ?_
      · exact List.Nodup.map (fun a b h => by injection h) (ih r hxs)
      · intro c hc1 hc2
        rw [List.mem_map] at hc1
        obtain ⟨a, -, rfl⟩ := hc1
        have hs := (mem_combos.mp hc2).2
        exact hx (hs.subset (List.mem_cons_self x a))

/-! ### The integer range -/

theorem length_rangeInt (a b : Int) : (rangeInt a b).length = (b - a).toNat := by
  rw [rangeInt, List.length_map, List.length_range]

theorem mem_rangeInt {a b x : Int} : x ∈ rangeInt a b ↔ (a ≤ x ∧ x < b) := by
  rw [rangeInt]
  constructor
  · intro h
    rw [List.mem_map] at h
    obtain ⟨n, hn, rfl⟩ := h
    rw [List.mem_range] at hn
    omega
  · rintro ⟨h1, h2⟩
    rw [List.mem_map]
    refine ⟨(x - a).toNat, ?_, by omega⟩
    rw [List.mem_range]
    omega

theorem pairwise_rangeInt (a b : Int) : (rangeInt a b).Pairwise (fun u v => u < v) := by
  rw [rangeInt]
  refine List.Pairwise.map _ ?_ (List.pairwise_lt_range _)
  intro u v huv
  omega

theorem rangeInt_eq_cons {a b : Int} (h : a < b) : rangeInt a b = a :: rangeInt (a + 1) b := by
  rw [rangeInt, rangeInt, show (b - a).toNat = (b - (a + 1)).toNat + 1 from by omega,
    List.range_succ_eq_map, List.map_cons, List.map_map]
  congr 1
  · simp
  · apply List.map_congr_left
    intro m hm
    simp only [Function.comp_apply]
    push_cast
    ring

theorem sublist_rangeInt {b : Int} : ∀ (n : Nat) (a : Int) (c : List Int), (b - a).toNat = n →
    c.Pairwise (fun u v => u < v) → (∀ x ∈ c, a ≤ x ∧ x < b) → c.Sublist (rangeInt a b) := by
  intro n
  induction n with
  | zero =>
    intro a c hn hp hb
    cases c with
    | nil => exact List.nil_sublist _
    | cons y c =>
      obtain ⟨h1, h2⟩ := hb y (List.mem_cons_self _ _)
      omega
  | succ n ih =>
    intro a c hn hp hb
    have hab : a < b := by omega
    rw [rangeInt_eq_cons hab]
    cases c with
    | nil => exact List.nil_sublist _
    | cons y c =>
      rw [List.pairwise_cons] at hp
      obtain ⟨hy1, hy2⟩ := hb y (List.mem_cons_self _ _)
      by_cases hya : y = a
      · subst hya
        refine List.Sublist.cons₂ y (ih (y + 1) c (by omega) hp.2 ?_)
        intro x hx
        have h1 := hp.1 x hx
        have h2 := (hb x (List.mem_cons_of_mem _ hx)).2
        omega
      · refine List.Sublist.cons a ?_
        refine ih (a + 1) (y :: c) (by omega) (List.pairwise_cons.mpr hp) ?_
        intro x hx
        rcases List.mem_cons.mp hx with rfl | hx'
        · omega
        · have h1 := hp.1 x hx'
          have h2 := hb x (List.mem_cons_of_mem _ hx')
          omega

/-! ### The gap map -/

theorem length_intervalsGo (t : Int) (n : Nat) : ∀ (c : List Int) (last : Int),
    (intervalsGo t n last c).length = c.length + 1 := by
  intro c
  induction c with
  | nil => intro last; rfl
  | cons i c ih =>
    intro last
    rw [show intervalsGo t n last (i :: c) = (i - last - 1) :: intervalsGo t n i c from rfl]
    rw [List.length_cons, ih i, List.length_cons]

theorem sum_intervalsGo (t : Int) (n : Nat) : ∀ (c : List Int) (last : Int),
    (intervalsGo t n last c).sum = t + (n : Int) - 1 - last - c.length := by
  intro c
  induction c with
  | nil =>
    intro last
    rw [show intervalsGo t n last [] = [t + (n : Int) - last - 1] from rfl]
    simp
    ring
  | cons i c ih =>
    intro last
    rw [show intervalsGo t n last (i :: c) = (i - last - 1) :: intervalsGo t n i c from rfl]
    rw [List.sum_cons, ih i, List.length_cons]
    push_cast
    ring

theorem nonneg_intervalsGo (t : Int) (n : Nat) : ∀ (c : List Int) (last : Int),
    List.Chain (fun u v => u < v) last c → (∀ x ∈ c, x < t + (n : Int)) →
    last < t + (n : Int) → ∀ y ∈ intervalsGo t n last c, 0 ≤ y := by
  intro c
  induction c with
  | nil =>
    intro last _ _ hlast y hy
    rw [show intervalsGo t n last [] = [t + (n : Int) - last - 1] from rfl,
      List.mem_singleton] at hy
    omega
  | cons i c ih =>
    intro last hch hbd hlast y hy
    rw [show intervalsGo t n last (i :: c) = (i - last - 1) :: intervalsGo t n i c from rfl] at hy
    rw [List.chain_cons] at hch
    rcases List.mem_cons.mp hy with rfl | hy'
    · omega
    · exact ih i hch.2 (fun x hx => hbd x (List.mem_cons_of_mem _ hx))
        (hbd i (List.mem_cons_self _ _)) y hy'

theorem intervalsGo_inj (t : Int) (n : Nat) : ∀ (c₁ c₂ : List Int) (last : Int),
    intervalsGo t n last c₁ = intervalsGo t n last c₂ → c₁ = c₂ := by
  intro c₁
  induction c₁ with
  | nil =>
    intro c₂ last h
    cases c₂ with
    | nil => rfl
    | cons i c₂ =>
      have h1 := congrArg List.length h
      rw [length_intervalsGo, length_intervalsGo] at h1
      simp at h1
  | cons i c₁ ih =>
    intro c₂ last h
    cases c₂ with
    | nil =>
      have h1 := congrArg List.length h
      rw [length_intervalsGo, length_intervalsGo] at h1
      simp at h1
    | cons i₂ c₂ =>
      rw [show intervalsGo t n last (i :: c₁) = (i - last - 1) :: intervalsGo t n i c₁ from rfl,
        show intervalsGo t n last (i₂ :: c₂)
          = (i₂ - last - 1) :: intervalsGo t n i₂ c₂ from rfl] at h
      injection h with hh ht
      have hii : i = i₂ := by omega
      subst hii
      rw [ih c₂ i ht]

theorem exists_intervalsGo (t : Int) (n : Nat) : ∀ (q' : List Int) (g : Int) (last : Int),
    (∀ x ∈ g :: q', 0 ≤ x) → (g :: q').sum = t + (n : Int) - 1 - last - q'.length →
    ∃ c : List Int, intervalsGo t n last c = g :: q' ∧
      List.Chain (fun u v => u < v) last c ∧
      (∀ x ∈ c, x < t + (n : Int)) ∧ c.length = q'.length := by
  intro q'
  induction q' with
  | nil =>
    intro g last hnn hsum
    refine ⟨[], ?_, List.Chain.nil, by simp, rfl⟩
    rw [show intervalsGo t n last [] = [t + (n : Int) - last - 1] from rfl]
    simp only [List.sum_cons, List.sum_nil, List.length_nil, Nat.cast_zero] at hsum
    congr 1
    omega
  | cons g2 q' ih =>
    intro g last hnn hsum
    have hg : 0 ≤ g := hnn g (List.mem_cons_self _ _)
    have hside : (g2 :: q').sum = t + (n : Int) - 1 - (last + g + 1) - q'.length := by
      rw [List.sum_cons] at hsum
      rw [List.length_cons] at hsum
      push_cast at hsum ⊢
      omega
    obtain ⟨c', hceq, hcch, hcbd, hclen⟩ :=
      ih g2 (last + g + 1) (fun x hx => hnn x (List.mem_cons_of_mem _ hx)) hside
    have hnn2 : 0 ≤ (g2 :: q').sum :=
      List.sum_nonneg (fun x hx => hnn x (List.mem_cons_of_mem _ hx))
    have hlenq : (0 : Int) ≤ (q'.length : Int) := Int.natCast_nonneg _
    have hlt : last + g + 1 < t + (n : Int) := by omega
    refine ⟨(last + g + 1) :: c', ?_, List.chain_cons.mpr ⟨by omega, hcch⟩, ?_, by simp [hclen]⟩
    · rw [show intervalsGo t n last ((last + g + 1) :: c')
        = ((last + g + 1) - last - 1) :: intervalsGo t n (last + g + 1) c' from rfl, hceq]
      congr 1
      ring
    · intro x hx
      rcases List.mem_cons.mp hx with rfl | hx'
      · exact hlt
      · exact hcbd x hx'

/-! ### Characterization of the generated partitions -/

theorem mem_partitions5 (t : Int) (p : List Int) :
    p ∈ partitions 5 t ↔ (p.length = 5 ∧ (∀ x ∈ p, 0 ≤ x) ∧ p.sum = t) := by
  rw [partitions]
  constructor
  · intro h
    rw [List.mem_map] at h
    obtain ⟨c, hc, rfl⟩ := h
    obtain ⟨hlen, hsub⟩ := mem_combos.mp hc
    have hpw : c.Pairwise (fun u v => u < v) :=
      List.Pairwise.sublist hsub (pairwise_rangeInt 1 (t + ((5 : Nat) : Int)))
    have hmem : ∀ x ∈ c, 1 ≤ x ∧ x < t + ((5 : Nat) : Int) :=
      fun x hx => mem_rangeInt.mp (hsub.subset hx)
    have hchain : List.Chain (fun u v => u < v) 0 c := by
      rw [List.chain_iff_pairwise, List.pairwise_cons]
      exact ⟨fun x hx => by have := (hmem x hx).1; omega, hpw⟩
    refine ⟨?_, ?_, ?_⟩
    · rw [intervals, length_intervalsGo, hlen]
    · intro y hy
      refine nonneg_intervalsGo t 5 c 0 hchain (fun x hx => (hmem x hx).2) ?_ y hy
      have hne : c ≠ [] := by
        intro hc0
        rw [hc0] at hlen
        simp at hlen
      obtain ⟨x, hx⟩ := List.exists_mem_of_ne_nil c hne
      have := hmem x hx
      omega
    · rw [intervals, sum_intervalsGo, hlen]
      push_cast
      ring
  · rintro ⟨hlen, hnn, hsum⟩
    cases p with
    | nil => simp at hlen
    | cons g q' =>
      have hq'len : q'.length = 4 := by simpa using hlen
      obtain ⟨c, hceq, hch, hcbd, hclen⟩ := exists_intervalsGo t 5 q' g 0 hnn (by
        rw [hsum, hq'len]
        push_cast
        ring)
      rw [List.mem_map]
      refine ⟨c, ?_, by rw [intervals]; exact hceq⟩
      obtain ⟨hpos, hpw⟩ := List.pairwise_cons.mp (List.chain_iff_pairwise.mp hch)
      refine mem_combos.mpr ⟨by rw [hclen, hq'len], ?_⟩
      refine sublist_rangeInt ((t + ((5 : Nat) : Int)) - 1).toNat 1 c rfl hpw ?_
      intro x hx
      exact ⟨by have := hpos x hx; omega, hcbd x hx⟩

theorem partitions_nodup (t : Int) : (partitions 5 t).Nodup := by
  rw [partitions]
  refine List.Nodup.map ?_ (combos_nodup _ _ ?_)
  · intro c₁ c₂ h
    exact intervalsGo_inj t 5 c₁ c₂ 0 h
  · exact List.Pairwise.imp (fun h => ne_of_lt h) (pairwise_rangeInt 1 _)

theorem partitions_length (t : Int) : (partitions 5 t).length = Nat.choose (t + 4).toNat 4 := by
  rw [partitions, List.length_map, combos_length, length_rangeInt]
  congr 1
  omega

/-- C3: invoked with 5 bins, the partition generator yields a duplicate-free
sequence of exactly choose (t+4) 4 tuples; its members are exactly the
5-entry tuples of non-negative integers summing to t (so in particular every
such tuple occurs); total 0 yields the single all-zero partition. -/
theorem partitions_spec (t : Nat) :
    (partitions 5 (t : Int)).length = Nat.choose (t + 4) 4 ∧
    (partitions 5 (t : Int)).Nodup ∧
    (∀ p : List Int, p ∈ partitions 5 (t : Int) ↔
      (p.length = 5 ∧ (∀ x ∈ p, 0 ≤ x) ∧ p.sum = (t : Int))) ∧
    partitions 5 (0 : Int) = [[0, 0, 0, 0, 0]] := by
  refine ⟨?_, partitions_nodup _, fun p => mem_partitions5 _ p, by decide⟩
  have h : ((t : Int) + 4).toNat = t + 4 := by omega
  rw [partitions_length, h]

/-! ### Count vectors versus 5-entry lists -/

theorem exists_five (p : List Int) (h5 : p.length = 5) :
    ∃ a b c d e : Int, p = [a, b, c, d, e] := by
  rcases p with _ | ⟨a, _ | ⟨b, _ | ⟨c, _ | ⟨d, _ | ⟨e, _ | ⟨f, p⟩⟩⟩⟩⟩⟩ <;>
    first
      | exact ⟨_, _, _, _, _, rfl⟩
      | (exfalso; simp at h5 <;> omega)

theorem countsOf_listOfCounts (k : Fin 5 → Nat) : countsOf (listOfCounts k) = k := by
  funext i
  fin_cases i <;> rfl

theorem listOfCounts_countsOf (p : List Int) (h5 : p.length = 5) (hnn : ∀ x ∈ p, 0 ≤ x) :
    listOfCounts (countsOf p) = p := by
  obtain ⟨a, b, c, d, e, rfl⟩ := exists_five p h5
  have ha : (0 : Int) ≤ a := hnn a (by simp)
  have hb : (0 : Int) ≤ b := hnn b (by simp)
  have hc : (0 : Int) ≤ c := hnn c (by simp)
  have hd : (0 : Int) ≤ d := hnn d (by simp)
  have he : (0 : Int) ≤ e := hnn e (by simp)
  show [(a.toNat : Int), (b.toNat : Int), (c.toNat : Int), (d.toNat : Int), (e.toNat : Int)]
      = [a, b, c, d, e]
  rw [Int.toNat_of_nonneg ha, Int.toNat_of_nonneg hb, Int.toNat_of_nonneg hc,
    Int.toNat_of_nonneg hd, Int.toNat_of_nonneg he]

theorem sum_countsOf (p : List Int) (h5 : p.length = 5) (hnn : ∀ x ∈ p, 0 ≤ x)
    (P : Nat) (hsum : p.sum = (P : Int)) :
    ∑ i : Fin 5, countsOf p i = P := by
  obtain ⟨a, b, c, d, e, rfl⟩ := exists_five p h5
  have ha : (0 : Int) ≤ a := hnn a (by simp)
  have hb : (0 : Int) ≤ b := hnn b (by simp)
  have hc : (0 : Int) ≤ c := hnn c (by simp)
  have hd : (0 : Int) ≤ d := hnn d (by simp)
  have he : (0 : Int) ≤ e := hnn e (by simp)
  rw [Fin.sum_univ_five]
  simp only [List.sum_cons, List.sum_nil, add_zero] at hsum
  show a.toNat + b.toNat + c.toNat + d.toNat + e.toNat = P
  omega

theorem sum_listOfCounts (k : Fin 5 → Nat) :
    (listOfCounts k).sum = ((∑ i : Fin 5, k i : Nat) : Int) := by
  rw [Fin.sum_univ_five]
  show (k 0 : Int) + ((k 1 : Int) + ((k 2 : Int) + ((k 3 : Int) + ((k 4 : Int) + 0))))
      = ((k 0 + k 1 + k 2 + k 3 + k 4 : Nat) : Int)
  push_cast
  ring

theorem exact_eq_multCount (p : List Int) (h5 : p.length = 5) (hnn : ∀ x ∈ p, 0 ≤ x) :
    exact_train_count (p.map Int.toNat) = multCount (countsOf p) := by
  obtain ⟨a, b, c, d, e, rfl⟩ := exists_five p h5
  have hs : (([a, b, c, d, e] : List Int).map Int.toNat).sum
      = ∑ i : Fin 5, countsOf [a, b, c, d, e] i := by
    rw [Fin.sum_univ_five]
    show a.toNat + (b.toNat + (c.toNat + (d.toNat + (e.toNat + 0))))
        = a.toNat + b.toNat + c.toNat + d.toNat + e.toNat
    omega
  have hp : ((([a, b, c, d, e] : List Int).map Int.toNat).map Nat.factorial).prod
      = ∏ i : Fin 5, (countsOf [a, b, c, d, e] i).factorial := by
    rw [Fin.prod_univ_five]
    show a.toNat.factorial * (b.toNat.factorial * (c.toNat.factorial
        * (d.toNat.factorial * (e.toNat.factorial * 1))))
      = a.toNat.factorial * b.toNat.factorial * c.toNat.factorial
        * d.toNat.factorial * e.toNat.factorial
    ring
  rw [exact_train_count_eq, hs, hp, multCount]
  rfl

theorem zipWith_add_zero (ct : List Int) (h5 : ct.length = 5) :
    List.zipWith (fun x y => x + y) [0, 0, 0, 0, 0] ct = ct := by
  obtain ⟨a, b, c, d, e, rfl⟩ := exists_five ct h5
  simp

/-! ### The Pascal recurrence of the multinomial coefficient -/

theorem prod_factorial_update (k : Fin 5 → Nat) (j : Fin 5) (hj : k j ≠ 0) :
    (∏ i : Fin 5, (k i).factorial)
      = k j * ∏ i : Fin 5, ((Function.update k j (k j - 1)) i).factorial := by
  have h1 : (∏ i : Fin 5, (k i).factorial)
      = (k j).factorial * ∏ i in Finset.univ.erase j, (k i).factorial :=
    (Finset.mul_prod_erase _ _ (Finset.mem_univ j)).symm
  have h2 : (∏ i : Fin 5, ((Function.update k j (k j - 1)) i).factorial)
      = (k j - 1).factorial * ∏ i in Finset.univ.erase j, (k i).factorial := by
    rw [← Finset.mul_prod_erase _
      (fun i => ((Function.update k j (k j - 1)) i).factorial) (Finset.mem_univ j)]
    congr 1
    · rw [Function.update_same]
    · refine Finset.prod_congr rfl ?_
      intro i hi
      rw [Function.update_noteq (Finset.ne_of_mem_erase hi)]
  rw [h1, h2, ← mul_assoc, Nat.mul_factorial_pred (Nat.pos_of_ne_zero hj)]

theorem sum_update_pred (k : Fin 5 → Nat) (j : Fin 5) (hj : k j ≠ 0) (P : Nat)
    (hsum : ∑ i : Fin 5, k i = P + 1) :
    ∑ i : Fin 5, (Function.update k j (k j - 1)) i = P := by
  rw [Finset.sum_update_of_mem (Finset.mem_univ j), Finset.sdiff_singleton_eq_erase]
  have h2 := Finset.add_sum_erase Finset.univ k (Finset.mem_univ j)
  omega

theorem pascal_multinomial (k : Fin 5 → Nat) (P : Nat) (hsum : ∑ i : Fin 5, k i = P + 1) :
    (∑ j : Fin 5, if k j ≠ 0 then multCount (Function.update k j (k j - 1)) else 0)
      = multCount k := by
  have hD : 0 < ∏ i : Fin 5, (k i).factorial :=
    Finset.prod_pos (fun i _ => Nat.factorial_pos _)
  refine Nat.eq_of_mul_eq_mul_left hD ?_
  rw [Finset.mul_sum]
  have hterm : ∀ j : Fin 5,
      (∏ i : Fin 5, (k i).factorial)
          * (if k j ≠ 0 then multCount (Function.update k j (k j - 1)) else 0)
        = k j * P.factorial := by
    intro j
    by_cases hj : k j = 0
    · simp [hj]
    · rw [if_pos hj, prod_factorial_update k j hj, mul_assoc]
      congr 1
      rw [multCount, Nat.multinomial_spec Finset.univ (Function.update k j (k j - 1)),
        sum_update_pred k j hj P hsum]
  rw [Finset.sum_congr rfl (fun j _ => hterm j), ← Finset.sum_mul, hsum, multCount,
    Nat.multinomial_spec Finset.univ k, hsum, Nat.factorial_succ]

/-! ### Reindexing the antidiagonal along one incremented coordinate -/

theorem sum_piAntidiag_bump (P : Nat) (j : Fin 5) (F : (Fin 5 → Nat) → Nat) :
    ∑ k in Finset.piAntidiag (Finset.univ : Finset (Fin 5)) P,
        F (Function.update k j (k j + 1))
      = ∑ k in (Finset.piAntidiag (Finset.univ : Finset (Fin 5)) (P + 1)).filter
          (fun k => k j ≠ 0), F k := by
  refine Finset.sum_nbij' (fun k => Function.update k j (k j + 1))
    (fun k => Function.update k j (k j - 1)) ?_ ?_ ?_ ?_ ?_
  · intro k hk
    rw [Finset.mem_piAntidiag] at hk
    have hsum : ∑ x ∈ (Finset.univ : Finset (Fin 5)), k x = P := hk.1
    have h2 : k j + ∑ x ∈ Finset.univ.erase j, k x = ∑ x ∈ (Finset.univ : Finset (Fin 5)), k x :=
      Finset.add_sum_erase Finset.univ k (Finset.mem_univ j)
    rw [Finset.mem_filter, Finset.mem_piAntidiag]
    refine ⟨⟨?_, fun i _ => Finset.mem_univ i⟩, ?_⟩
    · show ∑ x ∈ (Finset.univ : Finset (Fin 5)), Function.update k j (k j + 1) x = P + 1
      rw [Finset.sum_update_of_mem (Finset.mem_univ j), Finset.sdiff_singleton_eq_erase]
      omega
    · show Function.update k j (k j + 1) j ≠ 0
      rw [Function.update_same]
      omega
  · intro k hk
    rw [Finset.mem_filter, Finset.mem_piAntidiag] at hk
    obtain ⟨⟨hsum', -⟩, hne⟩ := hk
    have hsum : ∑ x ∈ (Finset.univ : Finset (Fin 5)), k x = P + 1 := hsum'
    have h2 : k j + ∑ x ∈ Finset.univ.erase j, k x = ∑ x ∈ (Finset.univ : Finset (Fin 5)), k x :=
      Finset.add_sum_erase Finset.univ k (Finset.mem_univ j)
    rw [Finset.mem_piAntidiag]
    refine ⟨?_, fun i _ => Finset.mem_univ i⟩
    show ∑ x ∈ (Finset.univ : Finset (Fin 5)), Function.update k j (k j - 1) x = P
    rw [Finset.sum_update_of_mem (Finset.mem_univ j), Finset.sdiff_singleton_eq_erase]
    omega
  · intro k hk
    show Function.update (Function.update k j (k j + 1)) j
        ((Function.update k j (k j + 1)) j - 1) = k
    funext i
    by_cases hij : i = j
    · subst hij
      simp [Function.update_same]
    · rw [Function.update_noteq hij, Function.update_noteq hij]
  · intro k hk
    rw [Finset.mem_filter] at hk
    have hne := hk.2
    show Function.update (Function.update k j (k j - 1)) j
        ((Function.update k j (k j - 1)) j + 1) = k
    funext i
    by_cases hij : i = j
    · subst hij
      simp only [Function.update_same]
      omega
    · rw [Function.update_noteq hij, Function.update_noteq hij]
  · intro k hk
    rfl

/-! ### Counting increment sequences by their tallies -/

theorem tally_nil : tally [] = (fun _ => 0) := by
  funext i
  simp [tally]

theorem tally_cons (j : Fin 5) (s : List (Fin 5)) :
    tally (j :: s) = Function.update (tally s) j (tally s j + 1) := by
  funext i
  by_cases hij : i = j
  · subst hij
    rw [Function.update_same]
    simp [tally, List.count_cons]
  · rw [Function.update_noteq hij]
    simp [tally, List.count_cons, Ne.symm hij]

theorem countP_flatMap {α β : Type} (g : α → List β) (q : β → Bool) :
    ∀ l : List α, (l.flatMap g).countP q = (l.map (fun a => (g a).countP q)).sum := by
  intro l
  induction l with
  | nil => rfl
  | cons a l ih =>
    rw [List.flatMap_cons, List.countP_append, ih, List.map_cons, List.sum_cons]

theorem length_allSeqs : ∀ P : Nat, (allSeqs P).length = 5 ^ P := by
  intro P
  induction P with
  | zero => rfl
  | succ P ih =>
    rw [show allSeqs (P + 1)
        = (List.finRange 5).flatMap (fun j => (allSeqs P).map (fun s => j :: s)) from rfl]
    rw [List.length_flatMap]
    have h2 : ∀ j : Fin 5,
        (List.length ∘ fun j => (allSeqs P).map (fun s => j :: s)) j = 5 ^ P := by
      intro j
      simp only [Function.comp_apply, List.length_map]
      exact ih
    rw [List.map_congr_left (fun j _ => h2 j), ← Fin.sum_univ_def, Finset.sum_const,
      Finset.card_univ, Fintype.card_fin, smul_eq_mul, pow_succ]
    ring

/-- Counting length-P increment sequences whose tally satisfies a predicate is
the same as summing multinomial coefficients of the satisfying count vectors:
multCount k is exactly the number of orderings realizing the counts k. -/
theorem countP_tally_eq_sum_piAntidiag :
    ∀ (P : Nat) (cond : (Fin 5 → Nat) → Bool),
      (allSeqs P).countP (fun s => cond (tally s))
        = ∑ k in Finset.piAntidiag (Finset.univ : Finset (Fin 5)) P,
            (if cond k then multCount k else 0) := by
  intro P
  induction P with
  | zero =>
    intro cond
    rw [show allSeqs 0 = [[]] from rfl]
    rw [Finset.piAntidiag_zero, Finset.sum_singleton]
    rw [List.countP_cons, List.countP_nil, Nat.zero_add]
    rw [show tally [] = (0 : Fin 5 → Nat) from by funext i; simp [tally]]
    rw [show multCount (0 : Fin 5 → Nat) = 1 from by decide]
  | succ P ih =>
    intro cond
    rw [show allSeqs (P + 1)
        = (List.finRange 5).flatMap (fun j => (allSeqs P).map (fun s => j :: s)) from rfl]
    rw [countP_flatMap]
    have hmap : ∀ j : Fin 5,
        ((allSeqs P).map (fun s => j :: s)).countP (fun s => cond (tally s))
          = (allSeqs P).countP
              (fun s => cond (Function.update (tally s) j (tally s j + 1))) := by
      intro j
      rw [List.countP_map]
      have hfun : ((fun s => cond (tally s)) ∘ (fun s => j :: s))
          = (fun s => cond (Function.update (tally s) j (tally s j + 1))) := by
        funext s
        simp only [Function.comp_apply]
        rw [tally_cons]
      rw [hfun]
    rw [List.map_congr_left (fun j _ => hmap j), ← Fin.sum_univ_def]
    have hih : ∀ j : Fin 5,
        (allSeqs P).countP (fun s => cond (Function.update (tally s) j (tally s j + 1)))
          = ∑ k in Finset.piAntidiag (Finset.univ : Finset (Fin 5)) P,
              (if cond (Function.update k j (k j + 1)) then multCount k else 0) :=
      fun j => ih (fun k => cond (Function.update k j (k j + 1)))
    rw [Finset.sum_congr rfl (fun j _ => hih j)]
    have hreidx : ∀ j : Fin 5,
        ∑ k in Finset.piAntidiag (Finset.univ : Finset (Fin 5)) P,
            (if cond (Function.update k j (k j + 1)) then multCount k else 0)
          = ∑ k in (Finset.piAntidiag (Finset.univ : Finset (Fin 5)) (P + 1)).filter
              (fun k => k j ≠ 0),
              (if cond k then multCount (Function.update k j (k j - 1)) else 0) := by
      intro j
      have hFform : ∀ k' ∈ Finset.piAntidiag (Finset.univ : Finset (Fin 5)) P,
          (if cond (Function.update k' j (k' j + 1)) then multCount k' else 0)
            = (fun k => if cond k then multCount (Function.update k j (k j - 1)) else 0)
                (Function.update k' j (k' j + 1)) := by
        intro k' hk'
        have hdb : Function.update (Function.update k' j (k' j + 1)) j
            ((Function.update k' j (k' j + 1)) j - 1) = k' := by
          funext i
          by_cases hij : i = j
          · subst hij
            simp [Function.update_same]
          · rw [Function.update_noteq hij, Function.update_noteq hij]
        simp only []
        rw [hdb]
      rw [Finset.sum_congr rfl hFform]
      exact sum_piAntidiag_bump P j
        (fun k => if cond k then multCount (Function.update k j (k j - 1)) else 0)
    rw [Finset.sum_congr rfl (fun j _ => hreidx j)]
    have hfilter : ∀ j : Fin 5,
        ∑ k in (Finset.piAntidiag (Finset.univ : Finset (Fin 5)) (P + 1)).filter
            (fun k => k j ≠ 0),
            (if cond k then multCount (Function.update k j (k j - 1)) else 0)
          = ∑ k in Finset.piAntidiag (Finset.univ : Finset (Fin 5)) (P + 1),
              (if k j ≠ 0 then
                (if cond k then multCount (Function.update k j (k j - 1)) else 0) else 0) :=
      fun j => Finset.sum_filter _ _
    rw [Finset.sum_congr rfl (fun j _ => hfilter j), Finset.sum_comm]
    refine Finset.sum_congr rfl ?_
    intro k hk
    rw [Finset.mem_piAntidiag] at hk
    have hsum : ∑ i : Fin 5, k i = P + 1 := hk.1
    by_cases hc : cond k
    · simp only [hc, if_true]
      exact pascal_multinomial k P hsum
    · simp [hc]

/-- Summing any function of the count vector over the generated partitions is
summing it over the full antidiagonal: the generator enumerates every count
vector exactly once. -/
theorem genMap_sum_eq_piAntidiag (P : Nat) (G : (Fin 5 → Nat) → Nat) :
    ((partitions 5 (P : Int)).map (fun p => G (countsOf p))).sum
      = ∑ k in Finset.piAntidiag (Finset.univ : Finset (Fin 5)) P, G k := by
  have hnd : ((partitions 5 (P : Int)).map countsOf).Nodup := by
    refine List.Nodup.map_on ?_ (partitions_nodup _)
    intro p hp q hq hpq
    obtain ⟨hp5, hpnn, -⟩ := (mem_partitions5 _ p).mp hp
    obtain ⟨hq5, hqnn, -⟩ := (mem_partitions5 _ q).mp hq
    rw [← listOfCounts_countsOf p hp5 hpnn, ← listOfCounts_countsOf q hq5 hqnn, hpq]
  have hmem : ∀ k : Fin 5 → Nat,
      k ∈ (partitions 5 (P : Int)).map countsOf
        ↔ k ∈ Finset.piAntidiag (Finset.univ : Finset (Fin 5)) P := by
    intro k
    rw [List.mem_map, Finset.mem_piAntidiag]
    constructor
    · rintro ⟨p, hp, rfl⟩
      obtain ⟨hp5, hpnn, hpsum⟩ := (mem_partitions5 _ p).mp hp
      exact ⟨sum_countsOf p hp5 hpnn P hpsum, fun i _ => Finset.mem_univ i⟩
    · rintro ⟨hsum, -⟩
      refine ⟨listOfCounts k, ?_, countsOf_listOfCounts k⟩
      refine (mem_partitions5 _ _).mpr ⟨rfl, ?_, ?_⟩
      · intro x hx
        simp only [listOfCounts, List.mem_cons, List.not_mem_nil, or_false] at hx
        rcases hx with rfl | rfl | rfl | rfl | rfl <;> exact Int.natCast_nonneg _
      · rw [sum_listOfCounts, hsum]
  have htf : Finset.piAntidiag (Finset.univ : Finset (Fin 5)) P
      = ((partitions 5 (P : Int)).map countsOf).toFinset := by
    refine Finset.ext ?_
    intro k
    rw [List.mem_toFinset, hmem]
  rw [htf, List.sum_toFinset _ hnd, List.map_map]
  rfl

/-- The engine accumulator as a sum over the antidiagonal of count vectors. -/
theorem genFavSum_eq (ct : List Int) (P : Nat) (cond : Condition) :
    genFavSum ct P cond
      = ∑ k in Finset.piAntidiag (Finset.univ : Finset (Fin 5)) P,
          (if cond (List.zipWith (fun x y => x + y) (listOfCounts k) ct) then
            multCount k else 0) := by
  have hcong : ∀ p ∈ partitions 5 (P : Int),
      (if cond (List.zipWith (fun x y => x + y) p ct) then
          exact_train_count (p.map Int.toNat) else 0)
        = (fun k => if cond (List.zipWith (fun x y => x + y) (listOfCounts k) ct) then
            multCount k else 0) (countsOf p) := by
    intro p hp
    obtain ⟨hp5, hpnn, -⟩ := (mem_partitions5 _ p).mp hp
    simp only []
    rw [listOfCounts_countsOf p hp5 hpnn, exact_eq_multCount p hp5 hpnn]
  rw [genFavSum, List.map_congr_left hcong]
  exact genMap_sum_eq_piAntidiag P
    (fun k => if cond (List.zipWith (fun x y => x + y) (listOfCounts k) ct) then
      multCount k else 0)

/-- On validated input with P points remaining, the engine returns the exact
favorable accumulator divided by 5 to the P. -/
theorem calc_ok_eval (ct : List Int) (tl : Int) (cond : Condition) (P : Nat)
    (h5 : ct.length = 5) (hnn : ∀ v ∈ ct, 0 ≤ v) (h3 : ct.sum % 3 = 0)
    (hP : (P : Int) = 3 * (tl - (ct.sum / 3 + 1)))
    (hhi : tl ≤ ct.sum / 3 + 20) :
    calc_train_probability ct tl cond
      = Except.ok ((genFavSum ct P cond : ℚ) / 5 ^ P) := by
  obtain ⟨m, hm⟩ := Int.dvd_of_emod_eq_zero h3
  have hdiv : ct.sum / 3 = m := by
    rw [hm]
    exact Int.mul_ediv_cancel_left _ (by norm_num)
  have hPnn : (0 : Int) ≤ (P : Int) := Int.natCast_nonneg _
  have hb : ct.sum ≤ 3 * tl ∧ 3 * tl ≤ ct.sum + 60 := by
    constructor <;> omega
  rw [calc_eval_of_valid ct tl cond h5 hnn h3 hb]
  rw [show 3 * (tl - (ct.sum / 3 + 1)) = (P : Int) from by omega]
  rw [powInt, if_pos hPnn, Int.toNat_natCast]
  rfl

/-- Idealized-arithmetic correctness of the enumeration: with the accumulator
and the final division carried out as exact numbers (as this embedding does,
in place of the source's float accumulator), a valid in-horizon call returns
the sum of multinomial counts of the generated partitions on which the
condition holds, divided by 5 to the remaining points, and that numerator
equals the number of length-P uniform increment sequences whose final
distribution satisfies the condition, out of the 5 to the P equally likely
sequences.  This is the intended value of the computation; whether the
source delivers it is settled negatively by the float-precision theorems. -/
theorem calc_exact_probability (ct : List Int) (tl : Int) (cond : Condition) (P : Nat)
    (h5 : ct.length = 5) (hnn : ∀ v ∈ ct, 0 ≤ v) (h3 : ct.sum % 3 = 0)
    (hP : (P : Int) = 3 * (tl - (ct.sum / 3 + 1)))
    (hlo : ct.sum / 3 + 1 ≤ tl) (hhi : tl ≤ ct.sum / 3 + 20) :
    calc_train_probability ct tl cond
        = Except.ok ((genFavSum ct P cond : ℚ) / 5 ^ P) ∧
    genFavSum ct P cond = seqFavCount ct P cond ∧
    (allSeqs P).length = 5 ^ P := by
  refine ⟨calc_ok_eval ct tl cond P h5 hnn h3 hP hhi, ?_, length_allSeqs P⟩
  rw [genFavSum_eq ct P cond, seqFavCount]
  exact (countP_tally_eq_sum_piAntidiag P
    (fun k => cond (List.zipWith (fun x y => x + y) (listOfCounts k) ct))).symm

theorem calc_exact_probability_witness :
    calc_train_probability [0, 0, 0, 0, 0] 2 condGe3
        = Except.ok ((genFavSum [0, 0, 0, 0, 0] 3 condGe3 : ℚ) / 5 ^ 3) ∧
    genFavSum [0, 0, 0, 0, 0] 3 condGe3 = seqFavCount [0, 0, 0, 0, 0] 3 condGe3 ∧
    (allSeqs 3).length = 5 ^ 3 :=
  calc_exact_probability [0, 0, 0, 0, 0] 2 condGe3 3 (by decide) (by decide) (by decide)
    (by decide) (by decide) (by decide)

/-- With the tautological condition every one of the 5 to the S increment
sequences is favorable, so the exact accumulator over the generated
partitions of S points is exactly 5 to the S. -/
theorem genFavSum_zero_condTrue (S : Nat) :
    genFavSum [0, 0, 0, 0, 0] S condTrue = 5 ^ S := by
  have h2 := countP_tally_eq_sum_piAntidiag S
    (fun k => condTrue (List.zipWith (fun x y => x + y) (listOfCounts k) [0, 0, 0, 0, 0]))
  calc genFavSum [0, 0, 0, 0, 0] S condTrue
      = ∑ k in Finset.piAntidiag (Finset.univ : Finset (Fin 5)) S,
          (if condTrue (List.zipWith (fun x y => x + y) (listOfCounts k) [0, 0, 0, 0, 0]) then
            multCount k else 0) := genFavSum_eq _ _ _
    _ = (allSeqs S).countP
          (fun s => condTrue (List.zipWith (fun x y => x + y)
            (listOfCounts (tally s)) [0, 0, 0, 0, 0])) := h2.symm
    _ = (allSeqs S).length := by simp [condTrue]
    _ = 5 ^ S := length_allSeqs S

/-- C4: the multinomial counts of all generated partitions of S points into 5
bins sum to exactly 5 to the S, so the probability mass of the outcome space
sums to one. -/
theorem partitions_total_mass (S : Nat) :
    ((partitions 5 (S : Int)).map (fun p => exact_train_count (p.map Int.toNat))).sum
      = 5 ^ S := by
  have h1 : ((partitions 5 (S : Int)).map
      (fun p => exact_train_count (p.map Int.toNat))).sum
        = genFavSum [0, 0, 0, 0, 0] S condTrue := by
    rw [genFavSum]
    refine congrArg List.sum (List.map_congr_left ?_)
    intro p hp
    simp [condTrue]
  rw [h1, genFavSum_zero_condTrue]

/-- C1: the engine does not return the exact probability on every valid
input, because the accumulator the source declares as a float cannot hold
the intermediate totals exactly.  With the all-zero distribution, target
level 9 (24 remaining points, well inside the accepted horizon of up to 57)
and a tautological condition, the favorable count accumulated before the
final division is exactly 5 to the 24: an odd integer above 2 to the 53,
which no IEEE-754 double represents, so the source's float additions round
before the division and the exactness claimed for every valid input fails.
The equalities below are about the idealized exact accumulator; the point is
that the true total itself is not float-representable. -/
theorem calc_exact_total_not_float_representable :
    calc_train_probability [0, 0, 0, 0, 0] 9 condTrue
        = Except.ok ((genFavSum [0, 0, 0, 0, 0] 24 condTrue : ℚ) / 5 ^ 24) ∧
    genFavSum [0, 0, 0, 0, 0] 24 condTrue = 5 ^ 24 ∧
    2 ^ 53 < 5 ^ 24 ∧ 5 ^ 24 % 2 = 1 := by
  refine ⟨?_, genFavSum_zero_condTrue 24, by decide, by decide⟩
  exact calc_ok_eval [0, 0, 0, 0, 0] 9 condTrue 24 (by decide) (by decide) (by decide)
    (by decide) (by decide)

/-- C7 counterexample: on the all-zero distribution with target_level 1 the
number of remaining points is 3 times (1 - current_level) = 0, not 3, so the
engine evaluates the condition a>=3 on the all-zero distribution itself and
returns exactly 0, not 1/125. -/
theorem calc_all_zero_target_one_zero :
    calc_train_probability [0, 0, 0, 0, 0] 1 condGe3 = Except.ok 0 ∧ (0 : ℚ) ≠ 1 / 125 := by
  constructor
  · rw [calc_ok_eval [0, 0, 0, 0, 0] 1 condGe3 0 (by decide) (by decide) (by decide)
      (by decide) (by decide)]
    rw [show genFavSum [0, 0, 0, 0, 0] 0 condGe3 = 0 from by decide]
    norm_num
  · norm_num

/-- C7 amended: the probability 1/125 = 0.008 for the condition a>=3 from the
all-zero distribution is obtained at target_level 2, the level that actually
leaves 3 remaining points. -/
theorem calc_all_zero_target_two :
    calc_train_probability [0, 0, 0, 0, 0] 2 condGe3 = Except.ok (1 / 125) := by
  rw [calc_ok_eval [0, 0, 0, 0, 0] 2 condGe3 3 (by decide) (by decide) (by decide)
    (by decide) (by decide)]
  rw [show genFavSum [0, 0, 0, 0, 0] 3 condGe3 = 1 from by decide]
  norm_num

/-- C8: with zero points remaining on a valid input, the partition sequence is
the single all-zero partition, so the condition is evaluated exactly once,
against the current distribution itself, and the result is exactly 1 when it
holds and exactly 0 otherwise. -/
theorem calc_points_zero (ct : List Int) (tl : Int) (cond : Condition)
    (h5 : ct.length = 5) (hnn : ∀ v ∈ ct, 0 ≤ v) (h3 : ct.sum % 3 = 0)
    (htl : tl = ct.sum / 3 + 1) :
    calc_train_probability ct tl cond = Except.ok (if cond ct then 1 else 0) ∧
    partitions 5 (3 * (tl - (ct.sum / 3 + 1))) = [[0, 0, 0, 0, 0]] := by
  have h0 : 3 * (tl - (ct.sum / 3 + 1)) = (0 : Int) := by
    rw [htl]
    ring
  constructor
  · rw [calc_ok_eval ct tl cond 0 h5 hnn h3 (by rw [h0]; rfl) (by omega)]
    have hg : genFavSum ct 0 cond = (if cond ct then 1 else 0) := by
      rw [genFavSum]
      rw [show ((0 : Nat) : Int) = (0 : Int) from rfl]
      rw [show partitions 5 (0 : Int) = [[0, 0, 0, 0, 0]] from by decide]
      rw [List.map_cons, List.map_nil, List.sum_cons, List.sum_nil]
      rw [zipWith_add_zero ct h5]
      rw [show exact_train_count (([0, 0, 0, 0, 0] : List Int).map Int.toNat) = 1 from by decide]
      by_cases hcond : cond ct <;> simp [hcond]
    rw [hg]
    by_cases hcond : cond ct <;> simp [hcond]
  · rw [h0]
    decide

theorem calc_points_zero_witness :
    calc_train_probability [3, 0, 0, 0, 0] 2 condGe3 = Except.ok 1 ∧
    partitions 5 (3 * (2 - (([3, 0, 0, 0, 0] : List Int).sum / 3 + 1))) = [[0, 0, 0, 0, 0]] := by
  obtain ⟨h1, h2⟩ := calc_points_zero [3, 0, 0, 0, 0] 2 condGe3
    (by decide) (by decide) (by decide) (by decide)
  refine ⟨?_, h2⟩
  rw [h1, if_pos (by decide : condGe3 [3, 0, 0, 0, 0] = true)]
